import Mathlib

/-!
Verification of the `typebits` crate: a type-level bitstring arithmetic
library.  The Rust source encodes every value as a zero-sized marker type and
every operation as an associated-type computation; here we shallowly embed
those type-level rules as ordinary Lean functions on an inductive `Bitstring`
type, mirroring the source's trait impls clause by clause.

Source files embedded: `src/bits.rs` (bits, tapes, trim, AND/OR/NOT, render),
`src/gates.rs` (bit-level gate aliases), `src/arithmetic/addition.rs`
(half-adder, ripple-carry sum), `src/arithmetic/subtraction.rs`
(half-subtractor, ripple-borrow difference), `src/array.rs` (the recursive
array-shape computation and slice-construction checks).
-/

namespace Typebits

/-- A single bit: the Rust marker types `B0` and `B1` (`src/bits.rs`). -/
inductive Bit where
  | B0 : Bit
  | B1 : Bit
deriving DecidableEq, Repr

/-- A bitstring: either a single `Bit` (the `impl<B: Bit> Bitstring for B`
blanket impl) or a `Tape<H, B>` holding a head bitstring and a
least-significant bit (`src/bits.rs`). -/
inductive Bitstring where
  | bit : Bit → Bitstring
  | tape : Bitstring → Bit → Bitstring
deriving DecidableEq, Repr

open Bit Bitstring

/-- Embeds `Bit::And` from `src/bits.rs`: `B1::And<Other> = Other`,
`B0::And<Other> = B0`. -/
def bitAnd : Bit → Bit → Bit
  | B1, o => o
  | B0, _ => B0

/-- Embeds `Bit::Or` from `src/bits.rs`: `B1::Or<Other> = B1`,
`B0::Or<Other> = Other`. -/
def bitOr : Bit → Bit → Bit
  | B1, _ => B1
  | B0, o => o

/-- Embeds `Bit::Not` from `src/bits.rs`. -/
def bitNot : Bit → Bit
  | B1 => B0
  | B0 => B1

/-- Embeds `BitXor<A, B> = BitOr<BitAnd<A, BitNot<B>>, BitAnd<BitNot<A>, B>>`
(`src/gates.rs`). -/
def bitXor (a b : Bit) : Bit :=
  bitOr (bitAnd a (bitNot b)) (bitAnd (bitNot a) b)

/-- The `RENDER` constant of `Bit` (`src/bits.rs`). -/
def Bit.RENDER : Bit → String
  | B0 => "0"
  | B1 => "1"

/-- Numeric value of a single bit (the spec's `value(lsb)`). -/
def Bit.toNat : Bit → Nat
  | B0 => 0
  | B1 => 1

/-- Boolean reading of a bit (`true` iff the bit is `B1`), matching the
source's `Bit::Bool` associated type. -/
def Bit.toBool : Bit → Bool
  | B0 => false
  | B1 => true

/-- Embeds `Bitstring::Head` (`src/bits.rs`): a `Tape`'s head, and `B0` for a single
bit ("a single bit can be interpreted as a two-bit tape with leading bit 0"). -/
def head : Bitstring → Bitstring
  | bit _ => bit B0
  | tape h _ => h

/-- Embeds `Bitstring::Lsb` (`src/bits.rs`). -/
def lsb : Bitstring → Bit
  | bit b => b
  | tape _ b => b

/-- The `IsB0` boolean (`src/bits.rs`, `byte_conditionals::IsB0`): for a bit
`B`, `<B::Not as Bit>::Bool` (true exactly for `B0`); for any `Tape`,
`False`. -/
def isB0 : Bitstring → Bool
  | bit B0 => true
  | bit B1 => false
  | tape _ _ => false

/-- Embeds `Bitstring::Trimmed` (`src/bits.rs`): a bit is its own trimmed form; for
`Tape<H, B>`, `SimpleIf<IsB0<H::Trimmed>, B, Tape<H::Trimmed, B>>`. -/
def trimmed : Bitstring → Bitstring
  | bit b => bit b
  | tape h b => if isB0 (trimmed h) then bit b else tape (trimmed h) b

/-- Embeds `Bitstring::And` (`src/bits.rs`): for a single bit,
`<B::And<Other::Lsb> as Bitstring>::Trimmed`; for `Tape<H, B>`,
`<Tape<H::And<Other::Head>, B::And<Other::Lsb>> as Bitstring>::Trimmed`. -/
def bsAnd : Bitstring → Bitstring → Bitstring
  | bit b, other => trimmed (bit (bitAnd b (lsb other)))
  | tape h b, other => trimmed (tape (bsAnd h (head other)) (bitAnd b (lsb other)))

/-- Embeds `Bitstring::Or` (`src/bits.rs`): for a single bit,
`<Tape<Other::Head, B::Or<Other::Lsb>> as Bitstring>::Trimmed`; for
`Tape<H, B>`, `<Tape<H::Or<Other::Head>, B::Or<Other::Lsb>> as
Bitstring>::Trimmed`. -/
def bsOr : Bitstring → Bitstring → Bitstring
  | bit b, other => trimmed (tape (head other) (bitOr b (lsb other)))
  | tape h b, other => trimmed (tape (bsOr h (head other)) (bitOr b (lsb other)))

/-- Embeds `Bitstring::Not` (`src/bits.rs`): for a single bit, the bit-level `NOT`;
for `Tape<H, B>`, `<Tape<H::Not, B::Not> as Bitstring>::Trimmed`. -/
def bsNot : Bitstring → Bitstring
  | bit b => bit (bitNot b)
  | tape h b => trimmed (tape (bsNot h) (bitNot b))

/-- Embeds `Bitstring::render` (`src/bits.rs`): MSB-first digit string, head
rendered before the least-significant bit. -/
def render : Bitstring → String
  | bit b => b.RENDER
  | tape h b => render h ++ b.RENDER

/-- The decoded numeric magnitude of a bitstring (the spec's `value(b)`):
MSB-first positional binary reading. -/
def val : Bitstring → Nat
  | bit b => b.toNat
  | tape h b => 2 * val h + b.toNat

/-- Structural bit count of a bitstring (number of digits in `render`),
including any leading zeros.  Used to talk about "the bit-width of an
operand prior to trimming". -/
def slen : Bitstring → Nat
  | bit _ => 1
  | tape h _ => slen h + 1

/-- A structural size measure used only for termination of the ripple
recursions. -/
def msize : Bitstring → Nat
  | bit _ => 1
  | tape h _ => msize h + 1

/-- Embeds `HalfAdd::Sum` (`src/arithmetic/addition.rs`):
`BitXor<BitXor<Self, Rhs>, CarryIn>`. -/
def halfAddSum (a b cin : Bit) : Bit :=
  bitXor (bitXor a b) cin

/-- Embeds `HalfAdd::Carry` (`src/arithmetic/addition.rs`):
`BitOr<BitAnd<Self, Rhs>, BitAnd<BitXor<Self, Rhs>, CarryIn>>`. -/
def halfAddCarry (a b cin : Bit) : Bit :=
  bitOr (bitAnd a b) (bitAnd (bitXor a b) cin)

/-- Embeds `HalfSubtract::Difference` (`src/arithmetic/subtraction.rs`):
`BitXor<Self, BitXor<Rhs, BorrowIn>>`. -/
def halfSubDiff (a b bin : Bit) : Bit :=
  bitXor a (bitXor b bin)

/-- Embeds `HalfSubtract::Borrow` (`src/arithmetic/subtraction.rs`):
`BitOr<BitAnd<BitNot<Self>, Rhs>, BitAnd<BitNot<BitXor<Self, Rhs>>, BorrowIn>>`. -/
def halfSubBorrow (a b bin : Bit) : Bit :=
  bitOr (bitAnd (bitNot a) b) (bitAnd (bitNot (bitXor a b)) bin)

/-- Embeds `Add::SumWithCarry` (`src/arithmetic/addition.rs`): a `Tape` whose head is
`IfB0<Or<Self::Head, Rhs::Head>, Thunk<HalfAdd::Carry of the LSBs>,
AddRecurse<Self, Rhs, CarryIn>>` and whose LSB is the half-add sum of the two
LSBs under the carry-in. -/
def sumWithCarry (a b : Bitstring) (cin : Bit) : Bitstring :=
  tape
    (if isB0 (bsOr (head a) (head b)) then
      bit (halfAddCarry (lsb a) (lsb b) cin)
    else
      sumWithCarry (head a) (head b) (halfAddCarry (lsb a) (lsb b) cin))
    (halfAddSum (lsb a) (lsb b) cin)
termination_by msize a + msize b
decreasing_by
  cases a <;> cases b <;> simp_all [head, bsOr, trimmed, isB0, bitOr, lsb, msize]
  all_goals omega

/-- Embeds `Add::Sum` (`src/arithmetic/addition.rs`):
`<Self::SumWithCarry<Rhs, B0> as Bitstring>::Trimmed`. -/
def Sum (a b : Bitstring) : Bitstring :=
  trimmed (sumWithCarry a b B0)

/-- Embeds `Subtract::DifferenceWithBorrow` (`src/arithmetic/subtraction.rs`): same
ripple shape as addition, but the base case emits a `Thunk<B0>` (the final
borrow bit is deliberately discarded) and the LSB is the half-subtract
difference. -/
def diffWithBorrow (a b : Bitstring) (bin : Bit) : Bitstring :=
  tape
    (if isB0 (bsOr (head a) (head b)) then
      bit B0
    else
      diffWithBorrow (head a) (head b) (halfSubBorrow (lsb a) (lsb b) bin))
    (halfSubDiff (lsb a) (lsb b) bin)
termination_by msize a + msize b
decreasing_by
  cases a <;> cases b <;> simp_all [head, bsOr, trimmed, isB0, bitOr, lsb, msize]
  all_goals omega

/-- Embeds `Subtract::Difference` (`src/arithmetic/subtraction.rs`):
`<Self::DifferenceWithBorrow<Rhs, B0> as Bitstring>::Trimmed`. -/
def Diff (a b : Bitstring) : Bitstring :=
  trimmed (diffWithBorrow a b B0)

/-! ### Supporting lemmas: bit-level facts and value decomposition -/

/-- A bit's value is below 2. -/
theorem Bit.toNat_lt (b : Bit) : b.toNat < 2 := by cases b <;> simp [Bit.toNat]

/-- The map `toNat` factors through `toBool`. -/
theorem Bit.toNat_eq_toBool (b : Bit) : b.toNat = b.toBool.toNat := by
  cases b <;> rfl

/-- The bit-level OR computes Boolean disjunction. -/
theorem bitOr_toBool (a b : Bit) : (bitOr a b).toBool = (a.toBool || b.toBool) := by
  cases a <;> cases b <;> rfl

/-- The bit-level AND computes Boolean conjunction. -/
theorem bitAnd_toBool (a b : Bit) : (bitAnd a b).toBool = (a.toBool && b.toBool) := by
  cases a <;> cases b <;> rfl

/-- Every bitstring's value decomposes through its head and LSB, in `Nat.bit`
form (also valid for single bits since their head is `B0`). -/
theorem val_bit_decomp (x : Bitstring) : val x = Nat.bit (lsb x).toBool (val (head x)) := by
  cases x with
  | bit b => cases b <;> rfl
  | tape h b => simp [val, head, lsb, Nat.bit_val, Bit.toNat_eq_toBool]

/-- Plain arithmetic form of the head/LSB decomposition. -/
theorem val_decomp (x : Bitstring) : val x = 2 * val (head x) + (lsb x).toNat := by
  rw [val_bit_decomp, Nat.bit_val, Bit.toNat_eq_toBool]

/-- The head holds the value divided by two. -/
theorem val_head (x : Bitstring) : val (head x) = val x / 2 := by
  have h := val_decomp x
  have := Bit.toNat_lt (lsb x)
  omega

/-- The LSB holds the value's parity. -/
theorem lsb_toNat (x : Bitstring) : (lsb x).toNat = val x % 2 := by
  have h := val_decomp x
  have := Bit.toNat_lt (lsb x)
  omega

/-! ### Supporting lemmas: trimming -/

/-- The test `isB0` recognises exactly the single zero bit. -/
theorem isB0_eq_true_iff (x : Bitstring) : isB0 x = true ↔ x = bit B0 := by
  cases x with
  | bit b => cases b <;> simp [isB0]
  | tape h b => simp [isB0]

/-- Trimming preserves the numeric value. -/
theorem val_trimmed (x : Bitstring) : val (trimmed x) = val x := by
  induction x with
  | bit b => rfl
  | tape h b ih =>
    rw [trimmed]
    by_cases h0 : isB0 (trimmed h) = true
    · rw [if_pos h0]
      rw [isB0_eq_true_iff] at h0
      have : val h = 0 := by rw [← ih, h0]; rfl
      simp [val, this]
    · rw [if_neg h0]
      simp [val, ih]

/-- The trimmed form is the single zero bit exactly when the value is zero. -/
theorem isB0_trimmed_iff (x : Bitstring) : isB0 (trimmed x) = true ↔ val x = 0 := by
  induction x with
  | bit b => cases b <;> simp [trimmed, isB0, val, Bit.toNat]
  | tape h b ih =>
    rw [trimmed]
    by_cases h0 : isB0 (trimmed h) = true
    · rw [if_pos h0]
      have hv : val h = 0 := ih.mp h0
      cases b <;> simp [isB0, val, Bit.toNat, hv]
    · rw [if_neg h0]
      have hv : val h ≠ 0 := fun hz => h0 (ih.mpr hz)
      simp [isB0, val]
      have := Bit.toNat_lt b
      omega

/-- Trimming is idempotent. -/
theorem trimmed_trimmed (x : Bitstring) : trimmed (trimmed x) = trimmed x := by
  induction x with
  | bit b => rfl
  | tape h b ih =>
    rw [trimmed]
    by_cases h0 : isB0 (trimmed h) = true
    · rw [if_pos h0]; rfl
    · rw [if_neg h0]
      rw [trimmed, ih, if_neg h0]

/-- The number of ripple steps the add/subtract recursion performs on the
operand pair: the recursion stops exactly when both heads are zero-valued
(the `Or<Self::Head, Rhs::Head>` test in the source). -/
def depth (a b : Bitstring) : Nat :=
  if isB0 (bsOr (head a) (head b)) then 1
  else depth (head a) (head b) + 1
termination_by msize a + msize b
decreasing_by
  cases a <;> cases b <;> simp_all [head, bsOr, trimmed, isB0, bitOr, lsb, msize]
  all_goals omega

/-! ### Canonical (trimmed) forms -/

/-- Whether the most-significant (deepest) bit of a bitstring is `B1`. -/
def msbOne : Bitstring → Bool
  | bit B1 => true
  | bit B0 => false
  | tape h _ => msbOne h

/-- The spec's canonical-form invariant: no leading (most-significant) zero
bits, except that a single bit (in particular the single `0` representing the
value zero) always qualifies. -/
def noLeadZeros : Bitstring → Bool
  | bit _ => true
  | tape h _ => msbOne h

/-- A non-zero trimmed form has a one in its most-significant position. -/
theorem msbOne_trimmed (x : Bitstring) (h : isB0 (trimmed x) = false) :
    msbOne (trimmed x) = true := by
  induction x with
  | bit b =>
    cases b with
    | B0 => simp [trimmed, isB0] at h
    | B1 => rfl
  | tape hd b ih =>
    rw [trimmed] at h ⊢
    by_cases h0 : isB0 (trimmed hd) = true
    · rw [if_pos h0] at h ⊢
      cases b with
      | B0 => simp [isB0] at h
      | B1 => rfl
    · rw [if_neg h0] at h ⊢
      have := ih (by simpa using h0)
      simpa [msbOne] using this

/-- Every trimmed form satisfies the canonical-form invariant. -/
theorem noLeadZeros_trimmed (x : Bitstring) : noLeadZeros (trimmed x) = true := by
  cases x with
  | bit b => rfl
  | tape h b =>
    rw [trimmed]
    by_cases h0 : isB0 (trimmed h) = true
    · rw [if_pos h0]; rfl
    · rw [if_neg h0]
      simpa [noLeadZeros] using msbOne_trimmed h (by simpa using h0)

/-- The canonical bitstring of a numeric value: single bit below 2, otherwise
a tape over the canonical form of the halved value. -/
def ofNat (n : Nat) : Bitstring :=
  if n < 2 then bit (if n = 0 then B0 else B1)
  else tape (ofNat (n / 2)) (if n % 2 = 0 then B0 else B1)
termination_by n
decreasing_by omega

/-- The builder `ofNat` decodes back to its argument. -/
theorem val_ofNat (n : Nat) : val (ofNat n) = n := by
  induction n using Nat.strong_induction_on with
  | _ n ih =>
    rw [ofNat.eq_def]
    by_cases h : n < 2
    · rw [if_pos h]
      interval_cases n <;> simp [val, Bit.toNat]
    · rw [if_neg h]
      have := ih (n / 2) (by omega)
      by_cases hp : n % 2 = 0 <;> simp [hp, val, Bit.toNat, this] <;> omega

/-- Trimming computes the canonical form of the value. -/
theorem trimmed_eq_ofNat (x : Bitstring) : trimmed x = ofNat (val x) := by
  induction x with
  | bit b =>
    cases b <;> rw [ofNat.eq_def] <;> simp [trimmed, val, Bit.toNat]
  | tape h b ih =>
    rw [trimmed]
    by_cases h0 : isB0 (trimmed h) = true
    · rw [if_pos h0]
      have hv : val h = 0 := (isB0_trimmed_iff h).mp h0
      cases b <;> rw [ofNat.eq_def] <;> simp [val, hv, Bit.toNat]
    · rw [if_neg h0]
      have hv : val h ≠ 0 := fun hz => h0 ((isB0_trimmed_iff h).mpr hz)
      have hb := Bit.toNat_lt b
      have hge : ¬ (val (tape h b) < 2) := by simp [val]; omega
      rw [ofNat.eq_def, if_neg hge]
      have hdiv : val (tape h b) / 2 = val h := by simp [val]; omega
      have hmod : val (tape h b) % 2 = b.toNat := by simp [val]; omega
      rw [hdiv, hmod, ← ih]
      cases b <;> simp [Bit.toNat]

/-- Two fixed points of `trimmed` with equal values are equal: the canonical
representation of a value is unique. -/
theorem canonical_unique {x y : Bitstring} (hx : trimmed x = x) (hy : trimmed y = y)
    (hv : val x = val y) : x = y := by
  rw [← hx, ← hy, trimmed_eq_ofNat, trimmed_eq_ofNat, hv]

/-! ### Values of the bitwise operations -/

/-- A bitwise OR of naturals vanishes exactly when both operands vanish. -/
theorem nat_lor_eq_zero {m n : Nat} : m ||| n = 0 ↔ m = 0 ∧ n = 0 := by
  constructor
  · intro h
    constructor
    · apply Nat.eq_of_testBit_eq
      intro i
      have := congrArg (fun z => Nat.testBit z i) h
      simp only [Nat.testBit_lor, Nat.zero_testBit, Bool.or_eq_false_iff] at this
      simp [this.1]
    · apply Nat.eq_of_testBit_eq
      intro i
      have := congrArg (fun z => Nat.testBit z i) h
      simp only [Nat.testBit_lor, Nat.zero_testBit, Bool.or_eq_false_iff] at this
      simp [this.2]
  · rintro ⟨rfl, rfl⟩
    rfl

/-- The `Nat.bit` form of a tape's value. -/
theorem val_tape_bit (h : Bitstring) (c : Bit) : val (tape h c) = Nat.bit c.toBool (val h) := by
  simp [val, Nat.bit_val, Bit.toNat_eq_toBool]

/-- The `Nat.bit` form of a single bit's value. -/
theorem val_bit_bit (c : Bit) : val (bit c) = Nat.bit c.toBool 0 := by
  cases c <;> rfl

/-- The bitstring OR computes the bitwise OR of the values. -/
theorem val_bsOr (a b : Bitstring) : val (bsOr a b) = val a ||| val b := by
  induction a generalizing b with
  | bit x =>
    rw [bsOr, val_trimmed, val_tape_bit, val_bit_bit, val_bit_decomp b,
      Nat.lor_bit, bitOr_toBool]
    simp
  | tape h x ih =>
    rw [bsOr, val_trimmed, val_tape_bit, val_tape_bit, val_bit_decomp b,
      Nat.lor_bit, bitOr_toBool, ih]

/-- The bitstring AND computes the bitwise AND of the values. -/
theorem val_bsAnd (a b : Bitstring) : val (bsAnd a b) = val a &&& val b := by
  induction a generalizing b with
  | bit x =>
    rw [bsAnd, val_trimmed, val_bit_bit, val_bit_bit, val_bit_decomp b,
      Nat.land_bit, bitAnd_toBool]
    simp
  | tape h x ih =>
    rw [bsAnd, val_trimmed, val_tape_bit, val_tape_bit, val_bit_decomp b,
      Nat.land_bit, bitAnd_toBool, ih]

/-- Every OR result is literally a trimmed bitstring. -/
theorem bsOr_is_trimmed (a b : Bitstring) : ∃ t, bsOr a b = trimmed t := by
  cases a <;> exact ⟨_, rfl⟩

/-- The termination test of the ripple recursions: `IsB0<Or<X, Y>>` holds
exactly when both `X` and `Y` are zero-valued. -/
theorem isB0_bsOr_iff (a b : Bitstring) :
    isB0 (bsOr a b) = true ↔ val a = 0 ∧ val b = 0 := by
  obtain ⟨t, ht⟩ := bsOr_is_trimmed a b
  have hv : val t = val a ||| val b := by
    rw [← val_trimmed t, ← ht, val_bsOr]
  rw [ht, isB0_trimmed_iff, hv, nat_lor_eq_zero]

/-! ### Value of the ripple-carry sum -/

/-- The half-adder circuit satisfies the binary full-adder identity. -/
theorem halfAdd_identity (a b c : Bit) :
    2 * (halfAddCarry a b c).toNat + (halfAddSum a b c).toNat = a.toNat + b.toNat + c.toNat := by
  cases a <;> cases b <;> cases c <;> rfl

/-- The untrimmed ripple-carry sum adds values exactly (with the carry-in). -/
theorem val_sumWithCarry (a b : Bitstring) (c : Bit) :
    val (sumWithCarry a b c) = val a + val b + c.toNat := by
  induction a, b, c using sumWithCarry.induct with
  | _ a b c ih =>
    rw [sumWithCarry]
    have hda := val_decomp a
    have hdb := val_decomp b
    have hid := halfAdd_identity (lsb a) (lsb b) c
    by_cases hcond : isB0 (bsOr (head a) (head b)) = true
    · rw [if_pos hcond]
      obtain ⟨ha, hb⟩ := (isB0_bsOr_iff _ _).mp hcond
      simp only [val]
      omega
    · rw [if_neg hcond]
      have hrec := ih hcond
      simp only [val]
      omega

/-- The operation `Sum` computes the numeric sum of its operands. -/
theorem val_Sum (a b : Bitstring) : val (Sum a b) = val a + val b := by
  rw [Sum, val_trimmed, val_sumWithCarry]
  rfl

/-! ### Value of the ripple-borrow difference -/

/-- The half-subtractor circuit satisfies the binary full-subtractor
identity. -/
theorem halfSub_identity (a b c : Bit) :
    a.toNat + 2 * (halfSubBorrow a b c).toNat = b.toNat + c.toNat + (halfSubDiff a b c).toNat := by
  cases a <;> cases b <;> cases c <;> rfl

/-- The untrimmed ripple-borrow difference stays below `2 ^ depth`. -/
theorem val_diffWithBorrow_lt (a b : Bitstring) (c : Bit) :
    val (diffWithBorrow a b c) < 2 ^ depth a b := by
  induction a, b, c using diffWithBorrow.induct with
  | _ a b c ih =>
    rw [diffWithBorrow, depth]
    have hd := Bit.toNat_lt (halfSubDiff (lsb a) (lsb b) c)
    by_cases hcond : isB0 (bsOr (head a) (head b)) = true
    · rw [if_pos hcond, if_pos hcond, pow_one]
      have hv : val (tape (bit B0) (halfSubDiff (lsb a) (lsb b) c))
          = (halfSubDiff (lsb a) (lsb b) c).toNat := by
        simp [val, Bit.toNat]
      rw [hv]
      omega
    · rw [if_neg hcond, if_neg hcond]
      have hrec := ih hcond
      simp only [val]
      rw [pow_succ]
      omega

/-- Single-bit case of subtraction modulo 2. -/
theorem bit_sub_emod (a0 b0 c : Bit) :
    ((a0.toNat : Int) - b0.toNat - c.toNat) % 2 = (halfSubDiff a0 b0 c).toNat := by
  cases a0 <;> cases b0 <;> cases c <;> decide

/-- One ripple step of subtraction, over the integers. -/
theorem diff_step (a b : Bitstring) (c : Bit) :
    (val a : Int) - val b - c.toNat =
      2 * ((val (head a) : Int) - val (head b) - (halfSubBorrow (lsb a) (lsb b) c).toNat)
        + (halfSubDiff (lsb a) (lsb b) c).toNat := by
  have hda := val_decomp a
  have hdb := val_decomp b
  have hid := halfSub_identity (lsb a) (lsb b) c
  omega

/-- The untrimmed ripple-borrow difference computes subtraction modulo
`2 ^ depth`: the wraparound semantics of the source. -/
theorem val_diffWithBorrow (a b : Bitstring) (c : Bit) :
    (val (diffWithBorrow a b c) : Int) =
      ((val a : Int) - val b - c.toNat) % 2 ^ depth a b := by
  induction a, b, c using diffWithBorrow.induct with
  | _ a b c ih =>
    rw [diffWithBorrow, depth]
    by_cases hcond : isB0 (bsOr (head a) (head b)) = true
    · rw [if_pos hcond, if_pos hcond]
      obtain ⟨ha, hb⟩ := (isB0_bsOr_iff _ _).mp hcond
      have hda := val_decomp a
      have hdb := val_decomp b
      have hva : val a = (lsb a).toNat := by omega
      have hvb : val b = (lsb b).toNat := by omega
      have hsimp : val (tape (bit B0) (halfSubDiff (lsb a) (lsb b) c))
          = (halfSubDiff (lsb a) (lsb b) c).toNat := by
        simp [val, Bit.toNat]
      rw [hva, hvb, pow_one, hsimp]
      exact (bit_sub_emod (lsb a) (lsb b) c).symm
    · rw [if_neg hcond, if_neg hcond]
      have hrec := ih hcond
      have hlt := val_diffWithBorrow_lt (head a) (head b) (halfSubBorrow (lsb a) (lsb b) c)
      have hstep := diff_step a b c
      generalize hKdef : depth (head a) (head b) = K at hrec ⊢
      generalize hXdef : (val (head a) : Int) - val (head b)
          - ((halfSubBorrow (lsb a) (lsb b) c).toNat : Int) = X at hrec hstep
      have h2K : (0 : Int) < 2 ^ K := by positivity
      have hr0 : 0 ≤ X % 2 ^ K := Int.emod_nonneg X (ne_of_gt h2K)
      have hrlt : X % 2 ^ K < 2 ^ K := Int.emod_lt_of_pos X h2K
      have hd := Bit.toNat_lt (halfSubDiff (lsb a) (lsb b) c)
      have hval : (val (tape (diffWithBorrow (head a) (head b)
          (halfSubBorrow (lsb a) (lsb b) c)) (halfSubDiff (lsb a) (lsb b) c)) : Int) =
          2 * (X % 2 ^ K) + (halfSubDiff (lsb a) (lsb b) c).toNat := by
        simp only [val]
        push_cast
        rw [hrec]
      rw [hval]
      have hsplit := Int.ediv_add_emod X (2 ^ K)
      have hrewrite : (val a : Int) - val b - c.toNat =
          (2 * (X % 2 ^ K) + ((halfSubDiff (lsb a) (lsb b) c).toNat : Int))
            + 2 ^ (K + 1) * (X / 2 ^ K) := by
        rw [pow_succ, hstep]
        nlinarith [hsplit]
      rw [hrewrite, Int.add_mul_emod_self_left]
      have h1 : (0 : Int) ≤ 2 * (X % 2 ^ K) + ((halfSubDiff (lsb a) (lsb b) c).toNat : Int) := by
        positivity
      have h2 : 2 * (X % 2 ^ K) + ((halfSubDiff (lsb a) (lsb b) c).toNat : Int) < 2 ^ (K + 1) := by
        rw [pow_succ]
        omega
      exact (Int.emod_eq_of_lt h1 h2).symm

/-! ### The modulus width of wrapping subtraction -/

/-- The bit-width of a numeric value: 1 for values below 2, one more than the
width of the halved value otherwise.  This is the bit-length of the trimmed
representation. -/
def width (n : Nat) : Nat :=
  if n < 2 then 1 else width (n / 2) + 1
termination_by n
decreasing_by omega

/-- Small values have width 1. -/
theorem width_of_lt_two {n : Nat} (h : n < 2) : width n = 1 := by
  rw [width.eq_def, if_pos h]

/-- Step equation for `width` on values of at least one full tape step. -/
theorem width_step {n : Nat} (h : 2 ≤ n) : width n = width (n / 2) + 1 := by
  rw [width.eq_def, if_neg (by omega)]

/-- Widths are positive. -/
theorem width_pos (n : Nat) : 1 ≤ width n := by
  rw [width.eq_def]
  by_cases h : n < 2
  · rw [if_pos h]
  · rw [if_neg h]
    omega

/-- Every value fits in its width. -/
theorem width_lt (n : Nat) : n < 2 ^ width n := by
  induction n using Nat.strong_induction_on with
  | _ n ih =>
    by_cases h : n < 2
    · rw [width_of_lt_two h, pow_one]
      omega
    · rw [width_step (by omega), pow_succ]
      have := ih (n / 2) (by omega)
      omega

/-- The ripple recursion depth is the larger of the two operands' value
widths: leading zeros on either operand never extend the recursion. -/
theorem depth_eq (a b : Bitstring) : depth a b = max (width (val a)) (width (val b)) := by
  induction a, b using depth.induct with
  | case1 a b hcond =>
    have hda := val_decomp a
    have hdb := val_decomp b
    have h1 := Bit.toNat_lt (lsb a)
    have h2 := Bit.toNat_lt (lsb b)
    obtain ⟨ha, hb⟩ := (isB0_bsOr_iff _ _).mp hcond
    rw [depth, if_pos hcond, width_of_lt_two (show val a < 2 by omega),
      width_of_lt_two (show val b < 2 by omega)]
    omega
  | case2 a b hcond ih =>
    have hda := val_decomp a
    have hdb := val_decomp b
    have h1 := Bit.toNat_lt (lsb a)
    have h2 := Bit.toNat_lt (lsb b)
    have hha := val_head a
    have hhb := val_head b
    have hor : ¬(val (head a) = 0 ∧ val (head b) = 0) := fun hc =>
      hcond ((isB0_bsOr_iff _ _).mpr hc)
    rw [depth, if_neg hcond, ih, hha, hhb]
    rcases Nat.lt_or_ge (val a) 2 with hva | hva
    · have hvb : 2 ≤ val b := by omega
      have e1 := width_of_lt_two (show val a / 2 < 2 by omega)
      have e2 := width_of_lt_two hva
      have e3 := width_step hvb
      have hp := width_pos (val b / 2)
      omega
    · rcases Nat.lt_or_ge (val b) 2 with hvb | hvb
      · have e1 := width_of_lt_two (show val b / 2 < 2 by omega)
        have e2 := width_of_lt_two hvb
        have e3 := width_step hva
        have hp := width_pos (val a / 2)
        omega
      · have e1 := width_step hva
        have e2 := width_step hvb
        omega

/-- The operands are bounded by the modulus `2 ^ depth`. -/
theorem operands_lt_pow_depth (a b : Bitstring) :
    val a < 2 ^ depth a b ∧ val b < 2 ^ depth a b := by
  rw [depth_eq]
  constructor
  · calc val a < 2 ^ width (val a) := width_lt _
    _ ≤ 2 ^ max (width (val a)) (width (val b)) :=
        Nat.pow_le_pow_right (by omega) (Nat.le_max_left _ _)
  · calc val b < 2 ^ width (val b) := width_lt _
    _ ≤ 2 ^ max (width (val a)) (width (val b)) :=
        Nat.pow_le_pow_right (by omega) (Nat.le_max_right _ _)

/-- Subtraction of a smaller-or-equal value computes exact truncated
subtraction. -/
theorem val_Diff_of_le (a b : Bitstring) (h : val b ≤ val a) :
    val (Diff a b) = val a - val b := by
  have hmod := val_diffWithBorrow a b B0
  have ⟨hb1, hb2⟩ := operands_lt_pow_depth a b
  have hz : (Bit.toNat B0 : Int) = 0 := rfl
  have hpow : ((2 ^ depth a b : Nat) : Int) = (2 : Int) ^ depth a b := by
    push_cast
    ring
  rw [hz, sub_zero, ← hpow] at hmod
  have hself : ((val a : Int) - val b) % ((2 ^ depth a b : Nat) : Int)
      = (val a : Int) - val b :=
    Int.emod_eq_of_lt (by omega) (by omega)
  rw [hself] at hmod
  rw [Diff, val_trimmed]
  omega

/-- Subtraction of a strictly larger value wraps around modulo
`2 ^ (the larger of the operands' value widths)`. -/
theorem val_Diff_of_lt (a b : Bitstring) (h : val a < val b) :
    val (Diff a b) = (2 ^ max (width (val a)) (width (val b)) - (val b - val a))
      % 2 ^ max (width (val a)) (width (val b)) := by
  have hmod := val_diffWithBorrow a b B0
  have ⟨hb1, hb2⟩ := operands_lt_pow_depth a b
  have hz : (Bit.toNat B0 : Int) = 0 := rfl
  have hpow : ((2 ^ depth a b : Nat) : Int) = (2 : Int) ^ depth a b := by
    push_cast
    ring
  rw [hz, sub_zero, ← hpow] at hmod
  have step1 : ((val a : Int) - val b + ((2 ^ depth a b : Nat) : Int) * 1)
      % ((2 ^ depth a b : Nat) : Int) = ((val a : Int) - val b) % ((2 ^ depth a b : Nat) : Int) := by
    apply Int.add_mul_emod_self_left
  have hwrap : ((val a : Int) - val b) % ((2 ^ depth a b : Nat) : Int)
      = (val a : Int) - val b + ((2 ^ depth a b : Nat) : Int) := by
    rw [← step1, mul_one]
    exact Int.emod_eq_of_lt (by omega) (by omega)
  rw [hwrap] at hmod
  rw [Diff, val_trimmed, ← depth_eq]
  have hfits : 2 ^ depth a b - (val b - val a) < 2 ^ depth a b := by
    have hp : 0 < 2 ^ depth a b := Nat.pos_pow_of_pos _ (by omega)
    omega
  rw [Nat.mod_eq_of_lt hfits]
  omega

/-! ### Closure of the operations over canonical forms -/

/-- Every AND result is literally a trimmed bitstring. -/
theorem bsAnd_is_trimmed (a b : Bitstring) : ∃ t, bsAnd a b = trimmed t := by
  cases a <;> exact ⟨_, rfl⟩

/-- Every NOT result is literally a trimmed bitstring. -/
theorem bsNot_is_trimmed (a : Bitstring) : ∃ t, bsNot a = trimmed t := by
  cases a with
  | bit x => exact ⟨bit (bitNot x), rfl⟩
  | tape h x => exact ⟨_, rfl⟩

/-- AND results are fixed points of trimming. -/
theorem trimmed_bsAnd (a b : Bitstring) : trimmed (bsAnd a b) = bsAnd a b := by
  obtain ⟨t, ht⟩ := bsAnd_is_trimmed a b
  rw [ht, trimmed_trimmed]

/-- OR results are fixed points of trimming. -/
theorem trimmed_bsOr (a b : Bitstring) : trimmed (bsOr a b) = bsOr a b := by
  obtain ⟨t, ht⟩ := bsOr_is_trimmed a b
  rw [ht, trimmed_trimmed]

/-- NOT results are fixed points of trimming. -/
theorem trimmed_bsNot (a : Bitstring) : trimmed (bsNot a) = bsNot a := by
  obtain ⟨t, ht⟩ := bsNot_is_trimmed a
  rw [ht, trimmed_trimmed]

/-- Sums are fixed points of trimming. -/
theorem trimmed_Sum (a b : Bitstring) : trimmed (Sum a b) = Sum a b := by
  rw [Sum, trimmed_trimmed]

/-- Differences are fixed points of trimming. -/
theorem trimmed_Diff (a b : Bitstring) : trimmed (Diff a b) = Diff a b := by
  rw [Diff, trimmed_trimmed]

/-- AND results satisfy the canonical-form invariant. -/
theorem noLeadZeros_bsAnd (a b : Bitstring) : noLeadZeros (bsAnd a b) = true := by
  obtain ⟨t, ht⟩ := bsAnd_is_trimmed a b
  rw [ht]
  exact noLeadZeros_trimmed t

/-- OR results satisfy the canonical-form invariant. -/
theorem noLeadZeros_bsOr (a b : Bitstring) : noLeadZeros (bsOr a b) = true := by
  obtain ⟨t, ht⟩ := bsOr_is_trimmed a b
  rw [ht]
  exact noLeadZeros_trimmed t

/-- NOT results satisfy the canonical-form invariant. -/
theorem noLeadZeros_bsNot (a : Bitstring) : noLeadZeros (bsNot a) = true := by
  obtain ⟨t, ht⟩ := bsNot_is_trimmed a
  rw [ht]
  exact noLeadZeros_trimmed t

/-- Sums satisfy the canonical-form invariant. -/
theorem noLeadZeros_Sum (a b : Bitstring) : noLeadZeros (Sum a b) = true :=
  noLeadZeros_trimmed _

/-- Differences satisfy the canonical-form invariant. -/
theorem noLeadZeros_Diff (a b : Bitstring) : noLeadZeros (Diff a b) = true :=
  noLeadZeros_trimmed _

/-! ### Commutativity -/

/-- Addition of bitstrings is commutative. -/
theorem Sum_comm (a b : Bitstring) : Sum a b = Sum b a := by
  apply canonical_unique (trimmed_Sum a b) (trimmed_Sum b a)
  rw [val_Sum, val_Sum, Nat.add_comm]

/-- AND of bitstrings is commutative. -/
theorem bsAnd_comm (a b : Bitstring) : bsAnd a b = bsAnd b a := by
  apply canonical_unique (trimmed_bsAnd a b) (trimmed_bsAnd b a)
  rw [val_bsAnd, val_bsAnd, Nat.land_comm]

/-- OR of bitstrings is commutative. -/
theorem bsOr_comm (a b : Bitstring) : bsOr a b = bsOr b a := by
  apply canonical_unique (trimmed_bsOr a b) (trimmed_bsOr b a)
  rw [val_bsOr, val_bsOr, Nat.lor_comm]

/-! ### The fixed-length array (`src/array.rs`) -/

/-- Modelled from the spec: the `UNSIGNED` associated constant of the
`Bitstring` trait is referenced throughout `src/array.rs` but its defining
impl is not among the provided sources.  Per the spec it is "computed
recursively as `2 * length(head) + value(lsb)`", i.e. the decoded integer
(for a single bit, its value). -/
def UNSIGNED : Bitstring → Nat
  | bit b => b.toNat
  | tape h b => 2 * UNSIGNED h + b.toNat

/-- The constant `UNSIGNED` is exactly the decoded numeric magnitude. -/
theorem UNSIGNED_eq_val (b : Bitstring) : UNSIGNED b = val b := by
  induction b <;> simp [UNSIGNED, val, *]

/-- Embeds `Array::<T, N>::len()` (`src/array.rs`): returns `N::UNSIGNED`. -/
def arrayLen (N : Bitstring) : Nat :=
  UNSIGNED N

/-- The shape of the internal recursive array representation
(`src/array.rs`): `ArrayTerm`, `ArrayEven<T, U>` (two halves, no data slot)
or `ArrayOdd<T, U>` (two halves plus one `T` slot). -/
inductive ArrayShape where
  | term : ArrayShape
  | even : ArrayShape → ArrayShape
  | odd : ArrayShape → ArrayShape
deriving DecidableEq, Repr

/-- Embeds `HasArray::ArrayType` (`src/array.rs`): `If<IsB0<B::Trimmed>,
Thunk<ArrayTerm>, ArrayRecurse<T, B::Trimmed>>`, where `ArrayRecurse` selects
`ArrayEven`/`ArrayOdd` on `IsB0` of the trimmed bitstring's LSB and recurses
on the trimmed bitstring's head. -/
def arrayType (B : Bitstring) : ArrayShape :=
  if isB0 (trimmed B) then ArrayShape.term
  else if isB0 (bit (lsb (trimmed B))) then ArrayShape.even (arrayType (head (trimmed B)))
  else ArrayShape.odd (arrayType (head (trimmed B)))
termination_by val B
decreasing_by
  all_goals simp_all [val_head, val_trimmed, isB0_trimmed_iff]
  all_goals omega

/-- The number of `T` data slots held by an array shape: `ArrayOdd` holds one
slot plus two halves, `ArrayEven` only two halves. -/
def slots : ArrayShape → Nat
  | ArrayShape.term => 0
  | ArrayShape.even u => 2 * slots u
  | ArrayShape.odd u => 2 * slots u + 1

/-- The trimmed LSB carries the value's parity. -/
theorem lsb_trimmed_toNat (B : Bitstring) : (lsb (trimmed B)).toNat = val B % 2 := by
  rw [lsb_toNat, val_trimmed]

/-- The array shape holds exactly `val B` data slots. -/
theorem slots_arrayType (B : Bitstring) : slots (arrayType B) = val B := by
  induction B using arrayType.induct with
  | case1 B hcond =>
    rw [arrayType, if_pos hcond]
    have := (isB0_trimmed_iff B).mp hcond
    simp [slots, this]
  | case2 B hcond hlsb ih =>
    rw [arrayType, if_neg hcond, if_pos hlsb]
    have hpar : (lsb (trimmed B)).toNat = 0 := by
      rw [isB0_eq_true_iff] at hlsb
      rw [show lsb (trimmed B) = B0 from by injection hlsb]
      rfl
    have hmod : val B % 2 = 0 := by rw [← lsb_trimmed_toNat, hpar]
    have hrec : slots (arrayType (head (trimmed B))) = val B / 2 := by
      rw [ih, val_head, val_trimmed]
    simp only [slots, hrec]
    omega
  | case3 B hcond hlsb ih =>
    rw [arrayType, if_neg hcond, if_neg hlsb]
    have hpar : (lsb (trimmed B)).toNat = 1 := by
      rcases hb : lsb (trimmed B) with _ | _
      · rw [isB0_eq_true_iff] at hlsb
        exact absurd (by rw [hb]) hlsb
      · rfl
    have hmod : val B % 2 = 1 := by rw [← lsb_trimmed_toNat, hpar]
    have hrec : slots (arrayType (head (trimmed B))) = val B / 2 := by
      rw [ih, val_head, val_trimmed]
    simp only [slots, hrec]
    omega

/-- Leading zeros on the length bitstring do not change the array shape: the
shape is computed from the trimmed form. -/
theorem arrayType_trimmed (B : Bitstring) : arrayType (trimmed B) = arrayType B := by
  conv_lhs => rw [arrayType]
  conv_rhs => rw [arrayType]
  rw [trimmed_trimmed]

/-- Embeds `BadLength` (`src/array.rs`): the length-mismatch error, carrying the
found and expected lengths. -/
structure BadLength where
  found : Nat
  expected : Nat
deriving DecidableEq, Repr

/-- Embeds `Array::try_from_slice` (`src/array.rs`): errors with
`BadLength { found: slice.len(), expected: N::UNSIGNED }` when the slice
length differs from `N::UNSIGNED`, and otherwise reinterprets the slice. -/
def tryFromSlice (N : Bitstring) {α : Type} (s : List α) : Except BadLength (List α) :=
  if s.length ≠ UNSIGNED N then Except.error ⟨s.length, UNSIGNED N⟩
  else Except.ok s

/-- Embeds `Array::try_new_from_slice` (`src/array.rs`): the cloning variant, with
the identical length check. -/
def tryNewFromSlice (N : Bitstring) {α : Type} (s : List α) : Except BadLength (List α) :=
  if s.length ≠ UNSIGNED N then Except.error ⟨s.length, UNSIGNED N⟩
  else Except.ok s

/-- Embeds `Array::from_slice` (`src/array.rs`): panics (modelled as `none`) when the
slice length differs from `N::UNSIGNED`, otherwise defers to
`try_from_slice`. -/
def fromSlice (N : Bitstring) {α : Type} (s : List α) : Option (List α) :=
  if s.length ≠ UNSIGNED N then none
  else
    match tryFromSlice N s with
    | Except.ok v => some v
    | Except.error _ => none

/-! ### Concrete bitstrings used by the spec's scenarios -/

/-- The bitstring `01` (MSB first). -/
def t01 : Bitstring := tape (bit B0) B1

/-- The bitstring `10`. -/
def t10 : Bitstring := tape (bit B1) B0

/-- The bitstring `010`. -/
def t010 : Bitstring := tape (tape (bit B0) B1) B0

/-- The bitstring `100`. -/
def t100 : Bitstring := tape (tape (bit B1) B0) B0

/-- The bitstring `101`. -/
def t101 : Bitstring := tape (tape (bit B1) B0) B1

/-- The bitstring `110`. -/
def t110 : Bitstring := tape (tape (bit B1) B1) B0

/-- The bitstring `1000`. -/
def t1000 : Bitstring := tape (tape (tape (bit B1) B0) B0) B0

/-- The bitstring `1011`. -/
def t1011 : Bitstring := tape (tape (tape (bit B1) B0) B1) B1

/-- The bitstring `00110`: value 6 carried with two leading zeros. -/
def t00110 : Bitstring := tape (tape (tape (tape (bit B0) B0) B1) B1) B0

/-- A 4-element slice. -/
def slice4 : List Nat := [0, 0, 0, 0]

/-- A 5-element slice. -/
def slice5 : List Nat := [0, 0, 0, 0, 0]

/-- Evaluation: `add("10", "110")` is the bitstring `1000`. -/
theorem eval_Sum_10_110 : Sum t10 t110 = t1000 := by
  simp [Sum, sumWithCarry, t10, t110, t1000, head, lsb, bsOr, trimmed, isB0,
    bitOr, bitAnd, bitNot, bitXor, halfAddSum, halfAddCarry]

/-- Evaluation: `subtract("101", "01")` is the bitstring `100`. -/
theorem eval_Diff_101_01 : Diff t101 t01 = t100 := by
  simp [Diff, diffWithBorrow, t101, t01, t100, head, lsb, bsOr, trimmed, isB0,
    bitOr, bitAnd, bitNot, bitXor, halfSubDiff, halfSubBorrow]

/-- Evaluation: `subtract("1011", "110")` is the bitstring `101`. -/
theorem eval_Diff_1011_110 : Diff t1011 t110 = t101 := by
  simp [Diff, diffWithBorrow, t1011, t110, t101, head, lsb, bsOr, trimmed, isB0,
    bitOr, bitAnd, bitNot, bitXor, halfSubDiff, halfSubBorrow]

/-- Evaluation: `subtract("110", "1011")` wraps to the bitstring `1011`. -/
theorem eval_Diff_110_1011 : Diff t110 t1011 = t1011 := by
  simp [Diff, diffWithBorrow, t110, t1011, head, lsb, bsOr, trimmed, isB0,
    bitOr, bitAnd, bitNot, bitXor, halfSubDiff, halfSubBorrow]

/-- Evaluation: `subtract("00110", "1011")` also wraps to `1011` even though
the first operand is five bits wide before trimming. -/
theorem eval_Diff_00110_1011 : Diff t00110 t1011 = t1011 := by
  simp [Diff, diffWithBorrow, t00110, t1011, head, lsb, bsOr, trimmed, isB0,
    bitOr, bitAnd, bitNot, bitXor, halfSubDiff, halfSubBorrow]

/-! ### The claims -/

/-- C1: for every pair of bitstrings `a` and `b`, `add(a, b)` (the `Sum`
alias) equals the trimmed result of `add_with_carry(a, b, 0)` (`SumWithCarry`
with `CarryIn = B0`), and its numeric value equals `value(a) + value(b)`; in
particular `add("10", "110")` renders as `"1000"`. -/
theorem spec_C1 :
    (∀ a b : Bitstring, Sum a b = trimmed (sumWithCarry a b B0))
    ∧ (∀ a b : Bitstring, val (Sum a b) = val a + val b)
    ∧ render (Sum t10 t110) = "1000" := by
  refine ⟨fun a b => rfl, val_Sum, ?_⟩
  rw [eval_Sum_10_110]
  rfl

/-- C2: for every pair of bitstrings `a` and `b` with `value(a) ≥ value(b)`,
`subtract(a, b)` (the `Diff` alias) has numeric value
`value(a) - value(b)`; in particular `subtract("101", "01")` renders as
`"100"` and `subtract("1011", "110")` renders as `"101"`. -/
theorem spec_C2 :
    (∀ a b : Bitstring, val b ≤ val a → val (Diff a b) = val a - val b)
    ∧ render (Diff t101 t01) = "100"
    ∧ render (Diff t1011 t110) = "101" := by
  refine ⟨val_Diff_of_le, ?_, ?_⟩
  · rw [eval_Diff_101_01]
    rfl
  · rw [eval_Diff_1011_110]
    rfl

/-- C2 witness: the general statement applied at `subtract("101", "01")`. -/
theorem spec_C2_witness :
    val t01 ≤ val t101 ∧ val (Diff t101 t01) = val t101 - val t01 :=
  ⟨by decide, spec_C2.1 t101 t01 (by decide)⟩

/-- C3 counterexample: with the untrimmed operand `a = "00110"` (five bits,
value 6) and `b = "1011"` (four bits, value 11), the longer operand is `a`
with bit-width 5, yet the result of `subtract(a, b)` is 11, not
`(2^5 - (11 - 6)) mod 2^5 = 27`: the modulus width is not the bit-width of
the longer operand prior to trimming. -/
theorem spec_C3_counterexample :
    val t00110 < val t1011
    ∧ slen t1011 < slen t00110
    ∧ slen t00110 = 5
    ∧ val (Diff t00110 t1011)
        ≠ (2 ^ slen t00110 - (val t1011 - val t00110)) % 2 ^ slen t00110 := by
  refine ⟨by decide, by decide, by decide, ?_⟩
  rw [eval_Diff_00110_1011]
  decide

/-- C3 (amended): for `value(a) < value(b)`, `subtract(a, b)` never signals
an error and yields the wraparound value `(2^n - (value(b) - value(a))) mod
2^n`, where `n` is the larger of the two operands' value bit-widths (the
bit-width after trimming, not the structural width of an untrimmed operand);
in particular `subtract("110", "1011")` renders as `"1011"`. -/
theorem spec_C3 :
    (∀ a b : Bitstring, val a < val b →
      val (Diff a b) = (2 ^ max (width (val a)) (width (val b)) - (val b - val a))
        % 2 ^ max (width (val a)) (width (val b)))
    ∧ render (Diff t110 t1011) = "1011" := by
  refine ⟨val_Diff_of_lt, ?_⟩
  rw [eval_Diff_110_1011]
  rfl

/-- C3 witness: the amended statement applied at `subtract("110", "1011")`. -/
theorem spec_C3_witness :
    val t110 < val t1011
    ∧ val (Diff t110 t1011)
        = (2 ^ max (width (val t110)) (width (val t1011)) - (val t1011 - val t110))
          % 2 ^ max (width (val t110)) (width (val t1011)) :=
  ⟨by decide, spec_C3.1 t110 t1011 (by decide)⟩

/-- C4: for all 8 combinations of bits `(a, b, carry_in)`, the half-adder
produces `Sum = a XOR b XOR carry_in` and
`Carry = (a AND b) OR ((a XOR b) AND carry_in)`. -/
theorem spec_C4 : ∀ a b c : Bit,
    (halfAddSum a b c).toBool = xor (xor a.toBool b.toBool) c.toBool
    ∧ (halfAddCarry a b c).toBool
        = ((a.toBool && b.toBool) || (xor a.toBool b.toBool && c.toBool)) := by
  intro a b c
  cases a <;> cases b <;> cases c <;> exact ⟨rfl, rfl⟩

/-- C5: for all 8 combinations of bits `(a, b, borrow_in)`, the
half-subtractor produces `Difference = a XOR b XOR borrow_in` and
`Borrow = ((NOT a) AND b) OR ((NOT (a XOR b)) AND borrow_in)`. -/
theorem spec_C5 : ∀ a b c : Bit,
    (halfSubDiff a b c).toBool = xor (xor a.toBool b.toBool) c.toBool
    ∧ (halfSubBorrow a b c).toBool
        = ((!a.toBool && b.toBool) || (!(xor a.toBool b.toBool) && c.toBool)) := by
  intro a b c
  cases a <;> cases b <;> cases c <;> exact ⟨rfl, rfl⟩

/-- C6: every result of `and`, `or`, `not`, `add` and `subtract` is in
canonical trimmed form: trimming returns it unchanged, and it has no leading
zero bits (a single bit, in particular the zero bitstring `0`, always
qualifies). -/
theorem spec_C6 : ∀ a b : Bitstring,
    (trimmed (bsAnd a b) = bsAnd a b ∧ noLeadZeros (bsAnd a b) = true)
    ∧ (trimmed (bsOr a b) = bsOr a b ∧ noLeadZeros (bsOr a b) = true)
    ∧ (trimmed (bsNot a) = bsNot a ∧ noLeadZeros (bsNot a) = true)
    ∧ (trimmed (Sum a b) = Sum a b ∧ noLeadZeros (Sum a b) = true)
    ∧ (trimmed (Diff a b) = Diff a b ∧ noLeadZeros (Diff a b) = true) :=
  fun a b =>
    ⟨⟨trimmed_bsAnd a b, noLeadZeros_bsAnd a b⟩,
     ⟨trimmed_bsOr a b, noLeadZeros_bsOr a b⟩,
     ⟨trimmed_bsNot a, noLeadZeros_bsNot a⟩,
     ⟨trimmed_Sum a b, noLeadZeros_Sum a b⟩,
     ⟨trimmed_Diff a b, noLeadZeros_Diff a b⟩⟩

/-- C7: `add`, `and` and `or` are commutative: swapping the operands yields
the same canonical bitstring. -/
theorem spec_C7 : ∀ a b : Bitstring,
    Sum a b = Sum b a ∧ bsAnd a b = bsAnd b a ∧ bsOr a b = bsOr b a :=
  fun a b => ⟨Sum_comm a b, bsAnd_comm a b, bsOr_comm a b⟩

/-- C8: the `UNSIGNED` constant (the quantity the spec calls `length(b)`) is
the decoded numeric magnitude, computed recursively as
`2 * UNSIGNED(head(b)) + value(lsb(b))`, not the count of bits (e.g. for
`"100"` it is 4 while the bit count is 3), and `Array::<T, N>::len()` returns
exactly `N::UNSIGNED`. -/
theorem spec_C8 :
    (∀ b : Bitstring, UNSIGNED b = val b)
    ∧ (∀ b : Bitstring, UNSIGNED b = 2 * UNSIGNED (head b) + (lsb b).toNat)
    ∧ (∀ N : Bitstring, arrayLen N = UNSIGNED N)
    ∧ (UNSIGNED t100 = 4 ∧ slen t100 = 3) := by
  refine ⟨UNSIGNED_eq_val, ?_, fun N => rfl, by decide, by decide⟩
  intro b
  cases b with
  | bit x => cases x <;> rfl
  | tape h x => rfl

/-- C9: `try_from_slice` (and `try_new_from_slice`) succeeds exactly when the
slice length equals `N::UNSIGNED`, and otherwise returns a recoverable
`BadLength` error carrying `expected = N::UNSIGNED` and `found = s.len()`;
the non-recoverable `from_slice` panics exactly when the length mismatches;
a length-5 array from a 4-element slice fails with expected 5, found 4. -/
theorem spec_C9 :
    (∀ (α : Type) (N : Bitstring) (s : List α),
      (∃ v, tryFromSlice N s = Except.ok v) ↔ s.length = UNSIGNED N)
    ∧ (∀ (α : Type) (N : Bitstring) (s : List α), s.length ≠ UNSIGNED N →
      tryFromSlice N s = Except.error ⟨s.length, UNSIGNED N⟩
      ∧ tryNewFromSlice N s = Except.error ⟨s.length, UNSIGNED N⟩)
    ∧ (∀ (α : Type) (N : Bitstring) (s : List α),
      fromSlice N s = none ↔ s.length ≠ UNSIGNED N)
    ∧ tryFromSlice t101 slice4 = Except.error ⟨4, 5⟩
    ∧ tryFromSlice t101 slice5 = Except.ok slice5 := by
  refine ⟨?_, ?_, ?_, by rfl, by rfl⟩
  · intro α N s
    by_cases h : s.length = UNSIGNED N <;> simp [tryFromSlice, h]
  · intro α N s h
    exact ⟨by rw [tryFromSlice, if_pos h], by rw [tryNewFromSlice, if_pos h]⟩
  · intro α N s
    by_cases h : s.length = UNSIGNED N <;> simp [fromSlice, tryFromSlice, h]

/-- C9 witness: the error branch applied at a length-5 array type and a
4-element slice. -/
theorem spec_C9_witness :
    tryFromSlice t101 slice4 = Except.error ⟨slice4.length, UNSIGNED t101⟩
    ∧ tryNewFromSlice t101 slice4 = Except.error ⟨slice4.length, UNSIGNED t101⟩ :=
  spec_C9.2.1 Nat t101 slice4 (by decide)

/-- C10: the internal array type is computed from the trimmed form of the
length bitstring, so `Array<T, N>` and `Array<T, trim(N)>` have the same
internal representation, the same number of element slots (`val N` of them)
and the same length; in particular the length bitstring `"010"` gives the
same shape as `"10"`, with 2 slots. -/
theorem spec_C10 :
    (∀ N : Bitstring, arrayType N = arrayType (trimmed N))
    ∧ (∀ N : Bitstring, slots (arrayType N) = val N)
    ∧ (∀ N : Bitstring, arrayLen N = arrayLen (trimmed N))
    ∧ arrayType t010 = arrayType t10
    ∧ slots (arrayType t010) = 2 := by
  refine ⟨fun N => (arrayType_trimmed N).symm, slots_arrayType, ?_, ?_, ?_⟩
  · intro N
    rw [arrayLen, arrayLen, UNSIGNED_eq_val, UNSIGNED_eq_val, val_trimmed]
  · rw [show t10 = trimmed t010 from rfl, arrayType_trimmed]
  · rw [slots_arrayType]
    rfl

end Typebits
